import Mathlib

/-!
Verification of the bin-packing program (`src/bin-packing.c`) against its
natural-language specification.

The C program packs 16-bit unsigned values (`unsigned short int`) into bins of a
fixed capacity `BIN_SIZE` using a first-fit loop (`fill_bins`), after sorting the
values (`sort_numbers_array`).  The definitions below are a shallow embedding of
the C functions:

* C `struct bin` (lines 52-57) becomes `Bin`.  The C field `count` always equals
  the number of stored items: it starts at 0 and is incremented exactly when an
  item is appended, and it is bounded by `NUMBERS_QUANTITY < 2^16`, so the
  `unsigned short` never wraps; it is therefore represented by `itens.length`
  (exposed as `Bin.count`).
* `struct bin_list` (lines 62-66) becomes `List Bin`; its `count` field likewise
  always equals the number of stored bins.
* All arithmetic the program performs on `left` and the values stays below 2^16:
  the subtraction `b->left -= num` is guarded by `num <= b->left`, so plain `Nat`
  arithmetic is exact.  The one place where 16-bit wrap-around can actually occur
  (the running `total` of `print_numbers`) is modelled with an explicit `% 65536`.
* The global `BIN_SIZE` and `NUMBERS_QUANTITY` are passed as explicit parameters
  (`BS` and `Q`); in every call made by `main`, `NUMBERS_QUANTITY` equals the
  length of the `values` array.
* Allocation failures terminate the C process; the happy-path functions below
  model allocation as succeeding, and the exit codes of the failure paths are
  modelled separately (`create_empty_bin_list_run`, `main_argc_exit`).
-/

namespace BinPacking

/-- C `struct bin` (bin-packing.c, lines 52-57): the stored items and the space
still available (`left`).  The `count` field is represented by `itens.length`. -/
structure Bin where
  itens : List Nat
  left : Nat
deriving DecidableEq

/-- The C `count` field of a bin: the number of stored items. -/
def Bin.count (b : Bin) : Nat := b.itens.length

/-- `insert_number_bin` (lines 419-445): if `num <= b->left`, append `num`,
subtract it from `left`, bump `count` and return 0; otherwise change nothing and
return 1.  (The reallocation of `itens` cannot fail in this model; on failure the
C process exits.) -/
def insert_number_bin (b : Bin) (num : Nat) : Bin × Nat :=
  if num ≤ b.left then
    (Bin.mk (b.itens ++ [num]) (b.left - num), 0)
  else
    (b, 1)

/-- `create_empty_bin` (lines 377-392): a fresh bin with `left = BIN_SIZE` and no
items.  `BIN_SIZE` is a global in C and an explicit parameter `BS` here. -/
def create_empty_bin (BS : Nat) : Bin :=
  Bin.mk [] BS

/-- `insert_bin_list` (lines 455-480): if `list->count > NUMBERS_QUANTITY` return
1 and change nothing; otherwise append the bin and return 0.  `NUMBERS_QUANTITY`
is the parameter `Q`. -/
def insert_bin_list (Q : Nat) (list : List Bin) (b : Bin) : List Bin × Nat :=
  if list.length > Q then
    (list, 1)
  else
    (list ++ [b], 0)

/-- The inner loop of `fill_bins` (lines 238-251): try `insert_number_bin` on
each existing bin in creation order, writing each return code into
`hasInserted`, and stop at the first success.  When the list is empty the loop
body never runs, so the incoming value of the C flag `hasInserted` is returned
unchanged. -/
def fill_bins_scan (hasInserted : Nat) (bins : List Bin) (num : Nat) : List Bin × Nat :=
  match bins with
  | [] => ([], hasInserted)
  | b :: rest =>
    let r := insert_number_bin b num
    if r.2 = 0 then
      (r.1 :: rest, 0)
    else
      let s := fill_bins_scan r.2 rest num
      (r.1 :: s.1, s.2)

/-- One iteration of the outer loop of `fill_bins` (lines 233-266) for a single
value `num`: scan the existing bins; if the flag is still 1 afterwards, create a
fresh bin, try to insert `num` into it with the return code DISCARDED (line 263),
and append the fresh bin with `insert_bin_list`, whose return code becomes the
new flag. -/
def fill_bins_step (Q BS hasInserted : Nat) (bins : List Bin) (num : Nat) : List Bin × Nat :=
  let s := fill_bins_scan hasInserted bins num
  if s.2 = 1 then
    insert_bin_list Q s.1 (insert_number_bin (create_empty_bin BS) num).1
  else
    s

/-- The outer loop of `fill_bins` (lines 233-266), folded over the remaining
values; the flag `hasInserted` is NOT reset between iterations, exactly as in
the C code. -/
def fill_bins_go (Q BS : Nat) : List Bin → Nat → List Nat → List Bin × Nat
  | bins, hasInserted, [] => (bins, hasInserted)
  | bins, hasInserted, num :: rest =>
    let s := fill_bins_step Q BS hasInserted bins num
    fill_bins_go Q BS s.1 s.2 rest

/-- `fill_bins` (lines 226-269): `hasInserted` starts at 1 (line 230); the loop
runs over `NUMBERS_QUANTITY = values.length` values; returns the updated bin
list together with the final value of the flag (the C return value). -/
def fill_bins (BS : Nat) (values : List Nat) (bins : List Bin) : List Bin × Nat :=
  fill_bins_go values.length BS bins 1 values

/-- All values stored in all bins of the list, in list order (bin order, and
arrival order inside each bin). -/
def binsValues : List Bin → List Nat
  | [] => []
  | b :: rest => b.itens ++ binsValues rest

/-! ### The sorting step

`sort_numbers_array` (lines 350-355) calls
`qsort(values, NUMBERS_QUANTITY, sizeof(int), comparison_numbers)` on the array
of `unsigned short int` values.  The element size handed to `qsort` is
`sizeof(int)` = 4 bytes, while the array elements are 2 bytes wide, so `qsort`
permutes consecutive PAIRS of values as single 32-bit units, and
`comparison_numbers` (lines 366-368) reads each such unit as one `int`.  The
model below reproduces this on a little-endian machine (the pair `(lo, hi)` is
read as `lo + 65536 * hi`); for an odd number of values the final unit would
include uninitialized memory, so the model covers even counts (the last
unpaired value would be indeterminate in C as well). -/

/-- Reinterpret a 32-bit unit as the signed `int` the comparator reads. -/
def toSigned32 (x : Nat) : Int :=
  if x < 2147483648 then (x : Int) else (x : Int) - 4294967296

/-- `comparison_numbers` (lines 366-368): `*(int*)b - *(int*)a`.  Exact whenever
the C subtraction does not overflow `int`. -/
def comparison_numbers (a b : Nat) : Int :=
  toSigned32 b - toSigned32 a

/-- The 32-bit units `qsort` actually permutes: consecutive pairs of 16-bit
values, little-endian. -/
def chunkPairs : List Nat → List Nat
  | a :: b :: rest => (a + 65536 * b) :: chunkPairs rest
  | _ => []

/-- Read the 32-bit units back as the 16-bit values the program then uses. -/
def unchunkPairs : List Nat → List Nat
  | [] => []
  | c :: rest => c % 65536 :: c / 65536 :: unchunkPairs rest

/-- Insertion of one element into a list already ordered by the comparator:
`x` goes before the first `y` with `comparison_numbers x y ≤ 0`.  `qsort` leaves
the relative order of comparator-equal elements unspecified; this realisation is
one valid outcome (and the unique one when all units compare distinct). -/
def insertByCmp (x : Nat) : List Nat → List Nat
  | [] => [x]
  | y :: ys => if comparison_numbers x y ≤ 0 then x :: y :: ys else y :: insertByCmp x ys

/-- A sort agreeing with `qsort`'s contract for `comparison_numbers`: the result
is ordered so that the comparator is nonpositive on adjacent elements. -/
def qsortByCmp (l : List Nat) : List Nat :=
  l.foldr insertByCmp []

/-- `sort_numbers_array` (lines 350-355): `qsort` over the value array with
element width `sizeof(int)`, i.e. a sort of the PAIRED 32-bit units. -/
def sort_numbers_array (values : List Nat) : List Nat :=
  unchunkPairs (qsortByCmp (chunkPairs values))

/-- Standard descending order, as the spec demands of the sorting step: each
element is greater than or equal to the element that follows it. -/
def sortedDesc (l : List Nat) : Prop :=
  List.Chain' (fun a b => b ≤ a) l

instance (l : List Nat) : Decidable (sortedDesc l) :=
  inferInstanceAs (Decidable (List.Chain' (fun a b => b ≤ a) l))

/-! ### Reporting and exit codes -/

/-- C division, which is undefined (and in practice crashes) for a zero
divisor: modelled as `none` in that case. -/
def cDiv (a b : Nat) : Option Nat :=
  if b = 0 then none else some (a / b)

/-- The running `total` of `print_numbers` (lines 516-530): an `unsigned short`
accumulation of the printed values, hence explicitly mod 2^16. -/
def print_numbers_total (values : List Nat) : Nat :=
  values.foldl (fun t v => (t + v) % 65536) 0

/-- The `Average` field printed at line 527: `total / NUMBERS_QUANTITY`,
computed unconditionally (no guard against `NUMBERS_QUANTITY == 0`). -/
def print_numbers_average (values : List Nat) : Option Nat :=
  cDiv (print_numbers_total values) values.length

/-- The argument check of `main` (lines 119-128): with `argc < 5` (fewer than 4
positional arguments) the program prints usage text and exits with the given
status; otherwise it continues (`none`). -/
def main_argc_exit (argc : Nat) : Option Nat :=
  if argc < 5 then some 1 else none

/-- `create_empty_bin_list` (lines 399-408) with its allocation outcome made
explicit: on success an empty list, on `malloc` failure the process exits with
status 0 (line 404: `exit(0)`). -/
def create_empty_bin_list_run (ok : Bool) : Except Nat (List Bin) :=
  if ok then Except.ok [] else Except.error 0

/-- The allocation path of `create_empty_bin` (lines 385-386): on `malloc`
failure the process exits with status 1. -/
def create_empty_bin_run (BS : Nat) (ok : Bool) : Except Nat Bin :=
  if ok then Except.ok (create_empty_bin BS) else Except.error 1

end BinPacking

namespace BinPacking

/-! ### Rewrite lemmas for the embedded operations -/

theorem insert_number_bin_of_fit (b : Bin) (num : Nat) (h : num ≤ b.left) :
    insert_number_bin b num = (Bin.mk (b.itens ++ [num]) (b.left - num), 0) := by
  simp [insert_number_bin, h]

theorem insert_number_bin_of_nofit (b : Bin) (num : Nat) (h : ¬ num ≤ b.left) :
    insert_number_bin b num = (b, 1) := by
  simp [insert_number_bin, h]

theorem fill_bins_scan_nil (h num : Nat) :
    fill_bins_scan h [] num = ([], h) := rfl

theorem fill_bins_scan_cons_fit (h num : Nat) (b : Bin) (rest : List Bin)
    (hfit : num ≤ b.left) :
    fill_bins_scan h (b :: rest) num =
      (Bin.mk (b.itens ++ [num]) (b.left - num) :: rest, 0) := by
  simp [fill_bins_scan, insert_number_bin_of_fit b num hfit]

theorem fill_bins_scan_cons_nofit (h num : Nat) (b : Bin) (rest : List Bin)
    (hfit : ¬ num ≤ b.left) :
    fill_bins_scan h (b :: rest) num =
      (b :: (fill_bins_scan 1 rest num).1, (fill_bins_scan 1 rest num).2) := by
  simp [fill_bins_scan, insert_number_bin_of_nofit b num hfit]

theorem fill_bins_go_cons (Q BS : Nat) (bins : List Bin) (h num : Nat) (rest : List Nat) :
    fill_bins_go Q BS bins h (num :: rest) =
      fill_bins_go Q BS (fill_bins_step Q BS h bins num).1
        (fill_bins_step Q BS h bins num).2 rest := rfl

theorem binsValues_append (l1 l2 : List Bin) :
    binsValues (l1 ++ l2) = binsValues l1 ++ binsValues l2 := by
  induction l1 with
  | nil => rfl
  | cons b rest ih => simp [binsValues, ih]

/-! ### Facts about the inner scanning loop -/

/-- The scan never changes the number of bins. -/
theorem fill_bins_scan_len (num : Nat) (bins : List Bin) :
    ∀ h, (fill_bins_scan h bins num).1.length = bins.length := by
  induction bins with
  | nil => intro h; rfl
  | cons b rest ih =>
    intro h
    by_cases hfit : num ≤ b.left
    · simp [fill_bins_scan_cons_fit h num b rest hfit]
    · simp [fill_bins_scan_cons_nofit h num b rest hfit, ih 1]

/-- Over a nonempty list the scan ends with flag 0 or 1 (the code of the last
attempted insertion). -/
theorem fill_bins_scan_code (num : Nat) (bins : List Bin) :
    ∀ h, bins ≠ [] →
      (fill_bins_scan h bins num).2 = 0 ∨ (fill_bins_scan h bins num).2 = 1 := by
  induction bins with
  | nil => intro h hne; exact absurd rfl hne
  | cons b rest ih =>
    intro h hne
    by_cases hfit : num ≤ b.left
    · left; simp [fill_bins_scan_cons_fit h num b rest hfit]
    · cases rest with
      | nil =>
        right
        simp [fill_bins_scan_cons_nofit h num b [] hfit, fill_bins_scan_nil]
      | cons c rest2 =>
        have h2 := ih 1 (List.cons_ne_nil c rest2)
        simpa [fill_bins_scan_cons_nofit h num b (c :: rest2) hfit] using h2

/-- A scan that did not end with flag 0 left every bin untouched. -/
theorem fill_bins_scan_unchanged (num : Nat) (bins : List Bin) :
    ∀ h, (fill_bins_scan h bins num).2 ≠ 0 → (fill_bins_scan h bins num).1 = bins := by
  induction bins with
  | nil => intro h _; rfl
  | cons b rest ih =>
    intro h hcode
    by_cases hfit : num ≤ b.left
    · rw [fill_bins_scan_cons_fit h num b rest hfit] at hcode
      exact absurd rfl hcode
    · rw [fill_bins_scan_cons_nofit h num b rest hfit] at hcode ⊢
      simp only []
      rw [ih 1 hcode]

/-- If no bin has room, the scan of a nonempty list returns the bins unchanged
and flag 1. -/
theorem fill_bins_scan_nofit_all (num : Nat) (bins : List Bin) :
    ∀ h, bins ≠ [] → (∀ b ∈ bins, ¬ num ≤ b.left) →
      fill_bins_scan h bins num = (bins, 1) := by
  induction bins with
  | nil => intro h hne _; exact absurd rfl hne
  | cons b rest ih =>
    intro h hne hall
    have hb : ¬ num ≤ b.left := hall b (List.mem_cons_self b rest)
    rw [fill_bins_scan_cons_nofit h num b rest hb]
    cases rest with
    | nil => simp [fill_bins_scan_nil]
    | cons c rest2 =>
      have h2 := ih 1 (List.cons_ne_nil c rest2)
        (fun x hx => hall x (List.mem_cons_of_mem b hx))
      simp [h2]

/-- A scan ending with flag 0 inserted `num` exactly once: the stored values
afterwards are a permutation of `num` together with the values before.  The
hypothesis rules out the unreachable corner of an empty list with a stale
success flag. -/
theorem fill_bins_scan_perm (num : Nat) (bins : List Bin) :
    ∀ h, (bins = [] → h ≠ 0) → (fill_bins_scan h bins num).2 = 0 →
      (binsValues (fill_bins_scan h bins num).1).Perm (num :: binsValues bins) := by
  induction bins with
  | nil =>
    intro h hne hcode
    exact absurd hcode (hne rfl)
  | cons b rest ih =>
    intro h hne hcode
    by_cases hfit : num ≤ b.left
    · rw [fill_bins_scan_cons_fit h num b rest hfit]
      have heq : binsValues (Bin.mk (b.itens ++ [num]) (b.left - num) :: rest) =
          b.itens ++ (num :: binsValues rest) := by
        simp [binsValues]
      rw [heq]
      exact List.perm_middle
    · rw [fill_bins_scan_cons_nofit h num b rest hfit] at hcode ⊢
      simp only [] at hcode ⊢
      have hrest : rest ≠ [] := by
        intro hr
        rw [hr] at hcode
        simp [fill_bins_scan_nil] at hcode
      have ihh := ih 1 (fun hr => absurd hr hrest) hcode
      have h1 : binsValues (b :: (fill_bins_scan 1 rest num).1) =
          b.itens ++ binsValues (fill_bins_scan 1 rest num).1 := rfl
      rw [h1]
      refine ((ihh.append_left b.itens).trans ?_)
      exact List.perm_middle

/-- The scan preserves the capacity invariant of every bin. -/
theorem fill_bins_scan_inv (BS num : Nat) (bins : List Bin) :
    ∀ h, (∀ b ∈ bins, b.itens.sum + b.left = BS) →
      ∀ b ∈ (fill_bins_scan h bins num).1, b.itens.sum + b.left = BS := by
  induction bins with
  | nil => intro h _ b hb; simp [fill_bins_scan_nil] at hb
  | cons b0 rest ih =>
    intro h hall b hb
    have hhead := hall b0 (List.mem_cons_self b0 rest)
    have htail : ∀ x ∈ rest, x.itens.sum + x.left = BS :=
      fun x hx => hall x (List.mem_cons_of_mem b0 hx)
    by_cases hfit : num ≤ b0.left
    · rw [fill_bins_scan_cons_fit h num b0 rest hfit] at hb
      rcases List.mem_cons.mp hb with hb | hb
      · subst hb
        simp only [List.sum_append, List.sum_cons, List.sum_nil]
        omega
      · exact htail b hb
    · rw [fill_bins_scan_cons_nofit h num b0 rest hfit] at hb
      rcases List.mem_cons.mp hb with hb | hb
      · subst hb; exact hhead
      · exact ih 1 htail b hb

/-- The scan either changes nothing or updates exactly one bin, which had room
for `num`. -/
theorem fill_bins_scan_shape (num : Nat) (bins : List Bin) :
    ∀ h, (fill_bins_scan h bins num).1 = bins ∨
      ∃ j, ∃ (hj : j < bins.length), num ≤ bins[j].left ∧
        (fill_bins_scan h bins num).1 =
          bins.set j (Bin.mk (bins[j].itens ++ [num]) (bins[j].left - num)) := by
  induction bins with
  | nil => intro h; left; rfl
  | cons b rest ih =>
    intro h
    by_cases hfit : num ≤ b.left
    · right
      refine ⟨0, by simp, by simpa using hfit, ?_⟩
      rw [fill_bins_scan_cons_fit h num b rest hfit]
      simp
    · rcases ih 1 with heq | ⟨j, hj, hfitj, heq⟩
      · left
        rw [fill_bins_scan_cons_nofit h num b rest hfit]
        simp [heq]
      · right
        refine ⟨j + 1, by simpa using Nat.succ_lt_succ hj, by simpa using hfitj, ?_⟩
        rw [fill_bins_scan_cons_nofit h num b rest hfit]
        simp only [List.set_cons_succ, List.getElem_cons_succ]
        simp [heq]

/-- No bin's remaining capacity grows during a scan. -/
theorem fill_bins_scan_get_le (num : Nat) (bins : List Bin) :
    ∀ h j (hj : j < bins.length) (hj2 : j < (fill_bins_scan h bins num).1.length),
      ((fill_bins_scan h bins num).1)[j].left ≤ bins[j].left := by
  intro h j hj hj2
  rcases fill_bins_scan_shape num bins h with heq | ⟨i, hi, hfit, heq⟩
  · simp [heq]
  · simp only [heq, List.getElem_set]
    by_cases hij : i = j
    · simp [hij, Nat.sub_le]
    · simp [hij]

/-- First-fit: if `j` is the first index whose bin has room for `num`, the scan
updates exactly bin `j` and succeeds. -/
theorem fill_bins_scan_first_fit (num : Nat) (bins : List Bin) :
    ∀ h j (hj : j < bins.length),
      (∀ i (hij : i < j), ¬ num ≤ bins[i].left) → num ≤ bins[j].left →
      fill_bins_scan h bins num =
        (bins.set j (Bin.mk (bins[j].itens ++ [num]) (bins[j].left - num)), 0) := by
  induction bins with
  | nil => intro h j hj; simp at hj
  | cons b rest ih =>
    intro h j hj hmin hfit
    cases j with
    | zero =>
      have hb : num ≤ b.left := by simpa using hfit
      rw [fill_bins_scan_cons_fit h num b rest hb]
      simp
    | succ k =>
      have hb : ¬ num ≤ b.left := by
        have := hmin 0 (Nat.succ_pos k)
        simpa using this
      rw [fill_bins_scan_cons_nofit h num b rest hb]
      have hk : k < rest.length := by simpa using hj
      have hmin2 : ∀ i (hik : i < k), ¬ num ≤ rest[i].left := by
        intro i hik
        have := hmin (i + 1) (Nat.succ_lt_succ hik)
        simpa using this
      have hfit2 : num ≤ rest[k].left := by simpa using hfit
      rw [ih 1 k hk hmin2 hfit2]
      simp

/-! ### Facts about one iteration of the outer loop -/

theorem fill_bins_step_eq (Q BS h num : Nat) (bins : List Bin) :
    fill_bins_step Q BS h bins num =
      if (fill_bins_scan h bins num).2 = 1 then
        insert_bin_list Q (fill_bins_scan h bins num).1
          (insert_number_bin (create_empty_bin BS) num).1
      else
        fill_bins_scan h bins num := rfl

/-- The list after one iteration is the scanned list, possibly with the fresh
bin appended. -/
theorem fill_bins_step_shape (Q BS h num : Nat) (bins : List Bin) :
    (fill_bins_step Q BS h bins num).1 = (fill_bins_scan h bins num).1 ∨
    (fill_bins_step Q BS h bins num).1 =
      (fill_bins_scan h bins num).1 ++ [(insert_number_bin (create_empty_bin BS) num).1] := by
  rw [fill_bins_step_eq]
  split
  · rw [insert_bin_list]
    split
    · left; rfl
    · right; rfl
  · left; rfl

/-- One iteration adds at most one bin. -/
theorem fill_bins_step_len_le (Q BS h num : Nat) (bins : List Bin) :
    (fill_bins_step Q BS h bins num).1.length ≤ bins.length + 1 := by
  have hsl := fill_bins_scan_len num bins h
  rcases fill_bins_step_shape Q BS h num bins with heq | heq
  · rw [heq]; omega
  · rw [heq]; simp only [List.length_append, List.length_cons, List.length_nil]; omega

/-- One iteration never removes a bin. -/
theorem fill_bins_step_len_ge (Q BS h num : Nat) (bins : List Bin) :
    bins.length ≤ (fill_bins_step Q BS h bins num).1.length := by
  have hsl := fill_bins_scan_len num bins h
  rcases fill_bins_step_shape Q BS h num bins with heq | heq
  · rw [heq]; omega
  · rw [heq]; simp only [List.length_append, List.length_cons, List.length_nil]; omega

/-- One iteration preserves the capacity invariant of every bin. -/
theorem fill_bins_step_inv (Q BS h num : Nat) (bins : List Bin)
    (hall : ∀ b ∈ bins, b.itens.sum + b.left = BS) :
    ∀ b ∈ (fill_bins_step Q BS h bins num).1, b.itens.sum + b.left = BS := by
  intro b hb
  rw [fill_bins_step_eq] at hb
  have hscan := fill_bins_scan_inv BS num bins h hall
  by_cases hc : (fill_bins_scan h bins num).2 = 1
  · simp only [hc, if_pos, insert_bin_list] at hb
    by_cases hg : (fill_bins_scan h bins num).1.length > Q
    · simp only [hg, if_pos] at hb
      exact hscan b hb
    · simp only [hg, if_neg, not_false_iff] at hb
      rcases List.mem_append.mp hb with hb | hb
      · exact hscan b hb
      · have hbv : b = (insert_number_bin (create_empty_bin BS) num).1 := by
          simpa using hb
        subst hbv
        by_cases hfit : num ≤ BS
        · rw [insert_number_bin_of_fit (create_empty_bin BS) num (by simpa [create_empty_bin] using hfit)]
          simp [create_empty_bin]
          omega
        · rw [insert_number_bin_of_nofit (create_empty_bin BS) num (by simpa [create_empty_bin] using hfit)]
          simp [create_empty_bin]
  · simp only [hc, if_neg, not_false_iff] at hb
    exact hscan b hb

/-- No bin's remaining capacity grows during one iteration. -/
theorem fill_bins_step_get_le (Q BS h num : Nat) (bins : List Bin) :
    ∀ j (hj : j < bins.length) (hj2 : j < (fill_bins_step Q BS h bins num).1.length),
      ((fill_bins_step Q BS h bins num).1)[j].left ≤ bins[j].left := by
  intro j hj hj2
  have hlen : j < (fill_bins_scan h bins num).1.length := by
    rw [fill_bins_scan_len]; exact hj
  have hscan := fill_bins_scan_get_le num bins h j hj hlen
  rcases fill_bins_step_shape Q BS h num bins with heq | heq
  · simp only [heq]
    exact hscan
  · simp only [heq]
    rw [List.getElem_append_left hlen]
    exact hscan

/-- After one iteration the bin list is never empty (given the flag invariant
that an empty list comes with flag 1, as at the entry of `fill_bins`). -/
theorem fill_bins_step_ne_nil (Q BS h num : Nat) (bins : List Bin)
    (hne : bins = [] → h = 1) :
    (fill_bins_step Q BS h bins num).1 ≠ [] := by
  cases bins with
  | nil =>
    have h1 : h = 1 := hne rfl
    subst h1
    rw [fill_bins_step_eq]
    simp [fill_bins_scan_nil, insert_bin_list]
  | cons b rest =>
    have := fill_bins_step_len_ge Q BS h num (b :: rest)
    intro hcontra
    rw [hcontra] at this
    simp at this

/-- When the value fits in the bin's capacity, one iteration stores it exactly
once and ends with flag 0 (the hypotheses hold at every reachable state of a
`fill_bins` run: the list is within the `NUMBERS_QUANTITY` bound and an empty
list only occurs with flag 1). -/
theorem fill_bins_step_perm (Q BS h num : Nat) (bins : List Bin)
    (hne : bins = [] → h = 1) (hlen : bins.length ≤ Q) (hnum : num ≤ BS) :
    (binsValues (fill_bins_step Q BS h bins num).1).Perm (num :: binsValues bins) ∧
    (fill_bins_step Q BS h bins num).2 = 0 := by
  cases bins with
  | nil =>
    have h1 : h = 1 := hne rfl
    subst h1
    rw [fill_bins_step_eq]
    rw [insert_number_bin_of_fit (create_empty_bin BS) num
      (by simpa [create_empty_bin] using hnum)]
    simp [fill_bins_scan_nil, insert_bin_list, binsValues, create_empty_bin]
  | cons b rest =>
    have hnil : (b :: rest : List Bin) ≠ [] := List.cons_ne_nil b rest
    rcases fill_bins_scan_code num (b :: rest) h hnil with hc0 | hc1
    · have hperm := fill_bins_scan_perm num (b :: rest) h (fun hx => absurd hx hnil) hc0
      rw [fill_bins_step_eq]
      have hc1f : ¬ (fill_bins_scan h (b :: rest) num).2 = 1 := by omega
      simp only [hc1f, if_neg, not_false_iff]
      exact ⟨hperm, hc0⟩
    · have hunch := fill_bins_scan_unchanged num (b :: rest) h (by omega)
      rw [fill_bins_step_eq]
      simp only [hc1, if_pos, insert_bin_list, hunch]
      have hg : ¬ (b :: rest : List Bin).length > Q := by omega
      simp only [hg, if_neg, not_false_iff]
      refine ⟨?_, by trivial⟩
      rw [binsValues_append]
      by_cases hfit : num ≤ BS
      · rw [insert_number_bin_of_fit (create_empty_bin BS) num
          (by simpa [create_empty_bin] using hfit)]
        simp only [binsValues, create_empty_bin, List.nil_append]
        exact List.perm_append_singleton num (binsValues (b :: rest))
      · exact absurd hnum hfit

/-- When no existing bin has room, one iteration appends the freshly created
bin (after the attempted insertion, whose code is discarded) to the END of the
list and ends with flag 0. -/
theorem fill_bins_step_nofit (Q BS h num : Nat) (bins : List Bin)
    (hall : ∀ b ∈ bins, ¬ num ≤ b.left) (hlen : bins.length ≤ Q)
    (hor : h = 1 ∨ bins ≠ []) :
    fill_bins_step Q BS h bins num =
      (bins ++ [(insert_number_bin (create_empty_bin BS) num).1], 0) := by
  have hscan : fill_bins_scan h bins num = (bins, 1) := by
    cases bins with
    | nil =>
      rcases hor with h1 | hne
      · subst h1; rfl
      · exact absurd rfl hne
    | cons b rest =>
      exact fill_bins_scan_nofit_all num (b :: rest) h (List.cons_ne_nil b rest) hall
  rw [fill_bins_step_eq, hscan]
  simp only [if_pos, insert_bin_list]
  have hg : ¬ bins.length > Q := by omega
  simp [hg]

/-- When some existing bin has room, one iteration updates exactly the FIRST
such bin and ends with flag 0. -/
theorem fill_bins_step_first_fit (Q BS h num : Nat) (bins : List Bin)
    (j : Nat) (hj : j < bins.length)
    (hmin : ∀ i (hij : i < j), ¬ num ≤ bins[i].left) (hfit : num ≤ bins[j].left) :
    fill_bins_step Q BS h bins num =
      (bins.set j (Bin.mk (bins[j].itens ++ [num]) (bins[j].left - num)), 0) := by
  have hscan := fill_bins_scan_first_fit num bins h j hj hmin hfit
  rw [fill_bins_step_eq, hscan]
  simp

/-- A value strictly larger than the bin capacity fits nowhere (all reachable
bins have `left ≤ BS`): the iteration appends the fresh bin UNCHANGED — still
empty, with `left` equal to the full capacity — and ends with flag 0, the value
being stored nowhere. -/
theorem fill_bins_step_oversize (Q BS h num : Nat) (bins : List Bin)
    (hnum : BS < num) (hleft : ∀ b ∈ bins, b.left ≤ BS) (hlen : bins.length ≤ Q)
    (hne : bins = [] → h = 1) :
    fill_bins_step Q BS h bins num = (bins ++ [create_empty_bin BS], 0) := by
  have hall : ∀ b ∈ bins, ¬ num ≤ b.left := by
    intro b hb
    have := hleft b hb
    omega
  have hor : h = 1 ∨ bins ≠ [] := by
    cases bins with
    | nil => exact Or.inl (hne rfl)
    | cons b rest => exact Or.inr (List.cons_ne_nil b rest)
  rw [fill_bins_step_nofit Q BS h num bins hall hlen hor]
  rw [insert_number_bin_of_nofit (create_empty_bin BS) num
    (by simp [create_empty_bin]; omega)]

/-! ### Facts about the whole packing loop -/

/-- Processing a prefix first and then the rest is the same as processing the
whole list: every intermediate state of a run is itself the start state of a
run over the remaining values. -/
theorem fill_bins_go_append (Q BS : Nat) (xs : List Nat) :
    ∀ bins h ys, fill_bins_go Q BS bins h (xs ++ ys) =
      fill_bins_go Q BS (fill_bins_go Q BS bins h xs).1
        (fill_bins_go Q BS bins h xs).2 ys := by
  induction xs with
  | nil => intro bins h ys; rfl
  | cons num rest ih =>
    intro bins h ys
    simp only [List.cons_append, fill_bins_go_cons]
    exact ih _ _ ys

/-- The loop adds at most one bin per processed value. -/
theorem fill_bins_go_len_le (Q BS : Nat) (vals : List Nat) :
    ∀ bins h, (fill_bins_go Q BS bins h vals).1.length ≤ bins.length + vals.length := by
  induction vals with
  | nil => intro bins h; simp [fill_bins_go]
  | cons num rest ih =>
    intro bins h
    rw [fill_bins_go_cons]
    have h1 := ih (fill_bins_step Q BS h bins num).1 (fill_bins_step Q BS h bins num).2
    have h2 := fill_bins_step_len_le Q BS h num bins
    simp only [List.length_cons]
    omega

/-- The loop never removes a bin. -/
theorem fill_bins_go_len_ge (Q BS : Nat) (vals : List Nat) :
    ∀ bins h, bins.length ≤ (fill_bins_go Q BS bins h vals).1.length := by
  induction vals with
  | nil => intro bins h; simp [fill_bins_go]
  | cons num rest ih =>
    intro bins h
    rw [fill_bins_go_cons]
    have h1 := ih (fill_bins_step Q BS h bins num).1 (fill_bins_step Q BS h bins num).2
    have h2 := fill_bins_step_len_ge Q BS h num bins
    omega

/-- The loop preserves the capacity invariant of every bin. -/
theorem fill_bins_go_inv (Q BS : Nat) (vals : List Nat) :
    ∀ bins h, (∀ b ∈ bins, b.itens.sum + b.left = BS) →
      ∀ b ∈ (fill_bins_go Q BS bins h vals).1, b.itens.sum + b.left = BS := by
  induction vals with
  | nil => intro bins h hall; exact hall
  | cons num rest ih =>
    intro bins h hall
    rw [fill_bins_go_cons]
    exact ih _ _ (fill_bins_step_inv Q BS h num bins hall)

/-- A bin's remaining capacity never increases over a run, whatever the start
state: bin `j` of the final list has at most the `left` it started with. -/
theorem fill_bins_go_get_le (Q BS : Nat) (vals : List Nat) :
    ∀ bins h j (hj : j < bins.length) (hj2 : j < (fill_bins_go Q BS bins h vals).1.length),
      ((fill_bins_go Q BS bins h vals).1)[j].left ≤ bins[j].left := by
  induction vals with
  | nil =>
    intro bins h j hj hj2
    simp [fill_bins_go]
  | cons num rest ih =>
    intro bins h j hj hj2
    have hmid : j < (fill_bins_step Q BS h bins num).1.length :=
      Nat.lt_of_lt_of_le hj (fill_bins_step_len_ge Q BS h num bins)
    have hj2go : j < (fill_bins_go Q BS (fill_bins_step Q BS h bins num).1
        (fill_bins_step Q BS h bins num).2 rest).1.length := by
      rw [fill_bins_go_cons] at hj2
      exact hj2
    have h1 := ih (fill_bins_step Q BS h bins num).1 (fill_bins_step Q BS h bins num).2
      j hmid hj2go
    have h2 := fill_bins_step_get_le Q BS h num bins j hj hmid
    calc ((fill_bins_go Q BS bins h (num :: rest)).1)[j].left
        = ((fill_bins_go Q BS (fill_bins_step Q BS h bins num).1
            (fill_bins_step Q BS h bins num).2 rest).1)[j].left := by
          simp only [fill_bins_go_cons]
      _ ≤ ((fill_bins_step Q BS h bins num).1)[j].left := h1
      _ ≤ bins[j].left := h2

/-- The loop never leaves the list empty once it has processed a value
(given the entry invariant on the flag). -/
theorem fill_bins_go_ne_nil (Q BS : Nat) (vals : List Nat) :
    ∀ bins h, (bins = [] → h = 1) → ((fill_bins_go Q BS bins h vals).1 = [] →
      (fill_bins_go Q BS bins h vals).2 = 1) := by
  induction vals with
  | nil => intro bins h hne hnil; exact hne hnil
  | cons num rest ih =>
    intro bins h hne hnil
    rw [fill_bins_go_cons] at hnil ⊢
    refine ih _ _ ?_ hnil
    intro hcontra
    exact absurd hcontra (fill_bins_step_ne_nil Q BS h num bins hne)

/-- Conservation for a run in which every value fits the capacity: at every
reachable state (list within the `Q` bound, empty list only with flag 1) the
values stored after the run are a permutation of the values stored before
together with the processed values. -/
theorem fill_bins_go_perm (Q BS : Nat) (vals : List Nat) :
    ∀ bins h, (bins = [] → h = 1) → bins.length + vals.length ≤ Q →
      (∀ v ∈ vals, v ≤ BS) →
      (binsValues (fill_bins_go Q BS bins h vals).1).Perm (binsValues bins ++ vals) := by
  induction vals with
  | nil =>
    intro bins h _ _ _
    simp [fill_bins_go]
  | cons num rest ih =>
    intro bins h hne hlen hall
    rw [fill_bins_go_cons]
    have hnum : num ≤ BS := hall num (List.mem_cons_self num rest)
    have hlen1 : bins.length ≤ Q := by
      simp only [List.length_cons] at hlen
      omega
    have hstep := fill_bins_step_perm Q BS h num bins hne hlen1 hnum
    have hne2 : (fill_bins_step Q BS h bins num).1 = [] →
        (fill_bins_step Q BS h bins num).2 = 1 := by
      intro hcontra
      exact absurd hcontra (fill_bins_step_ne_nil Q BS h num bins hne)
    have hlen2 : (fill_bins_step Q BS h bins num).1.length + rest.length ≤ Q := by
      have := fill_bins_step_len_le Q BS h num bins
      simp only [List.length_cons] at hlen
      omega
    have hall2 : ∀ v ∈ rest, v ≤ BS :=
      fun v hv => hall v (List.mem_cons_of_mem num hv)
    have ihh := ih (fill_bins_step Q BS h bins num).1 (fill_bins_step Q BS h bins num).2
      hne2 hlen2 hall2
    refine ihh.trans ?_
    refine ((hstep.1.append_right rest).trans ?_)
    have heq : (num :: binsValues bins) ++ rest = num :: (binsValues bins ++ rest) := rfl
    rw [heq]
    exact List.perm_middle.symm

/-! ### The claims -/

/-- C1: for every sequence of values packed by `fill_bins` (started, as in
`main`, on an empty bin list), every resulting bin satisfies
`remaining = capacity - sum(values)`, with the sum never exceeding the capacity
(so `remaining ≥ 0`, automatic for the unsigned field); and a bin's remaining
capacity never increases over the run: from any state of the loop, bin `j` of
the final list has at most the `left` it had at that state.  The input sequence
is arbitrary — sorted or not. -/
theorem claim_c1 (BS : Nat) (values : List Nat) :
    (∀ b ∈ (fill_bins BS values []).1,
      b.itens.sum + b.left = BS ∧ b.itens.sum ≤ BS ∧ b.left = BS - b.itens.sum) ∧
    (∀ Q bins h vals j (hj : j < bins.length)
        (hj2 : j < (fill_bins_go Q BS bins h vals).1.length),
      ((fill_bins_go Q BS bins h vals).1)[j].left ≤ bins[j].left) := by
  constructor
  · intro b hb
    have hinv := fill_bins_go_inv values.length BS values [] 1 (by simp) b hb
    exact ⟨hinv, by omega, by omega⟩
  · intro Q bins h vals j hj hj2
    exact fill_bins_go_get_le Q BS vals bins h j hj hj2

theorem claim_c1_witness :
    ((Bin.mk [6, 4] 0).itens.sum + (Bin.mk [6, 4] 0).left = 10 ∧
      (Bin.mk [6, 4] 0).itens.sum ≤ 10 ∧
      (Bin.mk [6, 4] 0).left = 10 - (Bin.mk [6, 4] 0).itens.sum) ∧
    ((fill_bins_go 1 10 [Bin.mk [] 10] 1 [7]).1)[0].left ≤
      ([Bin.mk [] 10] : List Bin)[0].left := by
  constructor
  · exact (claim_c1 10 [6, 5, 4, 3]).1 (Bin.mk [6, 4] 0) (by decide)
  · exact (claim_c1 10 [6, 5, 4, 3]).2 1 [Bin.mk [] 10] 1 [7] 0 (by decide) (by decide)

/-- C2: for every value offered to the loop, the existing bins are scanned in
creation order and the value lands in the FIRST bin with sufficient remaining
capacity, all other bins unchanged (so with B0 before B1 both fitting, B0 wins
and B1 is untouched); and when no existing bin fits, the freshly created bin of
the list's fixed capacity is appended to the END of the list. -/
theorem claim_c2 (Q BS h num : Nat) (bins : List Bin) :
    (∀ j (hj : j < bins.length),
      (∀ i (hij : i < j), ¬ num ≤ bins[i].left) → num ≤ bins[j].left →
      fill_bins_step Q BS h bins num =
        (bins.set j (Bin.mk (bins[j].itens ++ [num]) (bins[j].left - num)), 0)) ∧
    ((∀ b ∈ bins, ¬ num ≤ b.left) → bins.length ≤ Q → (h = 1 ∨ bins ≠ []) →
      fill_bins_step Q BS h bins num =
        (bins ++ [(insert_number_bin (create_empty_bin BS) num).1], 0)) :=
  ⟨fun j hj hmin hfit => fill_bins_step_first_fit Q BS h num bins j hj hmin hfit,
   fun hall hlen hor => fill_bins_step_nofit Q BS h num bins hall hlen hor⟩

theorem claim_c2_witness :
    fill_bins_step 4 10 0 [Bin.mk [6] 4, Bin.mk [5] 5] 3 =
      ([Bin.mk [6, 3] 1, Bin.mk [5] 5], 0) ∧
    fill_bins_step 4 10 0 [Bin.mk [6] 4, Bin.mk [5] 5] 7 =
      ([Bin.mk [6] 4, Bin.mk [5] 5, Bin.mk [7] 3], 0) := by
  constructor
  · have h1 := (claim_c2 4 10 0 3 [Bin.mk [6] 4, Bin.mk [5] 5]).1 0 (by decide)
      (fun i hij => absurd hij (Nat.not_lt_zero i)) (by decide)
    rw [h1]
    decide
  · have h2 := (claim_c2 4 10 0 7 [Bin.mk [6] 4, Bin.mk [5] 5]).2 (by decide) (by decide)
      (Or.inr (by decide))
    rw [h2]
    decide

/-- C3: `insert_number_bin` succeeds (returns code 0) exactly when
`num ≤ b.left`; on success it appends `num` at the end of the bin's sequence,
decreases `left` by exactly `num`, increases `count` by one; on failure it
returns the bin completely unchanged with code 1.  Codes 0 and 1 are the only
outcomes, with exactly this boolean meaning. -/
theorem claim_c3 (b : Bin) (num : Nat) :
    ((insert_number_bin b num).2 = 0 ↔ num ≤ b.left) ∧
    ((insert_number_bin b num).2 = 1 ↔ ¬ num ≤ b.left) ∧
    (num ≤ b.left →
      (insert_number_bin b num).1.itens = b.itens ++ [num] ∧
      (insert_number_bin b num).1.left = b.left - num ∧
      (insert_number_bin b num).1.left + num = b.left ∧
      (insert_number_bin b num).1.count = b.count + 1) ∧
    (¬ num ≤ b.left → insert_number_bin b num = (b, 1)) := by
  by_cases hfit : num ≤ b.left
  · rw [insert_number_bin_of_fit b num hfit]
    refine ⟨by simp [hfit], by simp [hfit],
      fun _ => ⟨rfl, rfl, Nat.sub_add_cancel hfit, ?_⟩, fun hn => absurd hfit hn⟩
    simp [Bin.count]
  · rw [insert_number_bin_of_nofit b num hfit]
    exact ⟨by simp [hfit], by simp [hfit], fun hy => absurd hy hfit, fun _ => rfl⟩

theorem claim_c3_witness :
    (insert_number_bin (Bin.mk [2] 8) 5).1.itens = [2, 5] ∧
    (insert_number_bin (Bin.mk [2] 8) 5).1.left + 5 = 8 ∧
    (insert_number_bin (Bin.mk [2] 8) 5).1.count = 2 ∧
    insert_number_bin (Bin.mk [2] 8) 9 = (Bin.mk [2] 8, 1) := by
  have h1 := (claim_c3 (Bin.mk [2] 8) 5).2.2.1 (by decide)
  have h2 := (claim_c3 (Bin.mk [2] 8) 9).2.2.2 (by decide)
  refine ⟨h1.1, h1.2.2.1, ?_, h2⟩
  rw [h1.2.2.2]
  decide

/-- C4, counterexample: conservation FAILS as stated.  Packing the single value
11 with bin capacity 10 stores the value nowhere (the freshly created bin is
appended empty), so the multiset union of the bins' values is empty rather than
`{11}`. -/
theorem claim_c4_counterexample :
    ¬ ((binsValues (fill_bins 10 [11] []).1 : Multiset Nat) = ([11] : Multiset Nat)) := by
  intro hcontra
  rw [Multiset.coe_eq_coe] at hcontra
  have heval : binsValues (fill_bins 10 [11] []).1 = [] := rfl
  rw [heval] at hcontra
  have hlen := hcontra.length_eq
  simp at hlen

/-- C4, amended: PROVIDED every packed value is at most the bin capacity, the
multiset union of the values contained in all bins after `fill_bins` (started
on the empty list, as in `main`) equals the multiset of input values — no value
lost, duplicated, or altered. -/
theorem claim_c4_amended (BS : Nat) (values : List Nat)
    (hall : ∀ v ∈ values, v ≤ BS) :
    (binsValues (fill_bins BS values []).1 : Multiset Nat) = (values : Multiset Nat) := by
  rw [Multiset.coe_eq_coe]
  have h := fill_bins_go_perm values.length BS values [] 1 (fun _ => rfl) (by simp) hall
  simpa [fill_bins, binsValues] using h

theorem claim_c4_amended_witness :
    (binsValues (fill_bins 10 [6, 5, 4, 3] []).1 : Multiset Nat) =
      ([6, 5, 4, 3] : Multiset Nat) :=
  claim_c4_amended 10 [6, 5, 4, 3] (by decide)

/-- C5, counterexample: the claim FAILS as stated.  Packing the oversized value
11 with capacity 10 does create a fresh bin, but the value is NOT placed into
it and the bin does not report negative remaining capacity: the bin stays
empty with `left = 10`, the full capacity (the C field is unsigned and is never
decremented, because the insertion's admission check fails), and 11 is stored
nowhere — it IS silently discarded. -/
theorem claim_c5_counterexample :
    (fill_bins 10 [11] []).1 = [Bin.mk [] 10] ∧
    (∀ b ∈ (fill_bins 10 [11] []).1, 11 ∉ b.itens ∧ b.left = 10) := by
  constructor
  · rfl
  · decide

/-- C5, amended: for every value `num` with `num > BS` offered to the loop in
any reachable state, the attempted insertion into the freshly created bin
leaves that bin unchanged (empty, `left` equal to the full capacity — the
unsigned remaining never goes negative), the empty bin is appended, and `num`
ends up in no bin: it is silently discarded rather than detected or
rejected. -/
theorem claim_c5_amended (Q BS h num : Nat) (bins : List Bin) (hnum : BS < num)
    (hinv : ∀ b ∈ bins, b.itens.sum + b.left = BS) (hlen : bins.length ≤ Q)
    (hne : bins = [] → h = 1) :
    (insert_number_bin (create_empty_bin BS) num).1 = create_empty_bin BS ∧
    fill_bins_step Q BS h bins num = (bins ++ [create_empty_bin BS], 0) ∧
    ∀ b ∈ (fill_bins_step Q BS h bins num).1, num ∉ b.itens := by
  have hleft : ∀ b ∈ bins, b.left ≤ BS := by
    intro b hb
    have := hinv b hb
    omega
  have hstep := fill_bins_step_oversize Q BS h num bins hnum hleft hlen hne
  refine ⟨?_, hstep, ?_⟩
  · rw [insert_number_bin_of_nofit (create_empty_bin BS) num
      (by simp [create_empty_bin]; omega)]
  · intro b hb
    rw [hstep] at hb
    rcases List.mem_append.mp hb with hb | hb
    · intro hmem
      have hsum := hinv b hb
      have hle : num ≤ b.itens.sum :=
        List.single_le_sum (fun x _ => Nat.zero_le x) num hmem
      omega
    · have hbe : b = create_empty_bin BS := by simpa using hb
      subst hbe
      simp [create_empty_bin]

theorem claim_c5_amended_witness :
    (insert_number_bin (create_empty_bin 10) 12).1 = create_empty_bin 10 ∧
    fill_bins_step 2 10 0 [Bin.mk [4, 6] 0] 12 = ([Bin.mk [4, 6] 0, create_empty_bin 10], 0) ∧
    ∀ b ∈ (fill_bins_step 2 10 0 [Bin.mk [4, 6] 0] 12).1, 12 ∉ b.itens :=
  claim_c5_amended 2 10 0 12 [Bin.mk [4, 6] 0] (by decide) (by decide) (by decide)
    (fun hx => absurd hx (by decide))

/-- C6: the bin list never contains more bins than the number of values being
packed: the final list of a `fill_bins` run from the empty list has at most
`values.length` bins; from any state the loop adds at most one bin per
remaining value; and at every intermediate point of the run (after any prefix
of the values) the list still has at most `values.length` bins. -/
theorem claim_c6 (BS : Nat) (values : List Nat) :
    (fill_bins BS values []).1.length ≤ values.length ∧
    (∀ Q bins h vals,
      (fill_bins_go Q BS bins h vals).1.length ≤ bins.length + vals.length) ∧
    (∀ xs ys, values = xs ++ ys →
      (fill_bins_go values.length BS [] 1 xs).1.length ≤ values.length) := by
  refine ⟨?_, ?_, ?_⟩
  · have h := fill_bins_go_len_le values.length BS values [] 1
    simpa [fill_bins] using h
  · intro Q bins h vals
    exact fill_bins_go_len_le Q BS vals bins h
  · intro xs ys hsplit
    have h1 := fill_bins_go_len_le values.length BS xs [] 1
    have h2 : xs.length ≤ values.length := by
      rw [hsplit]
      simp
    simp only [List.length_nil, Nat.zero_add] at h1
    omega

theorem claim_c6_witness :
    (fill_bins_go 4 10 [] 1 [6, 5]).1.length ≤ 4 :=
  (claim_c6 10 [6, 5, 4, 3]).2.2 [6, 5] [4, 3] rfl

/-- C7, code bug: `sort_numbers_array` does NOT sort the values descending.
`qsort` is called with element size `sizeof(int)` (4 bytes) over an array of
2-byte `unsigned short` values, so it reorders adjacent PAIRS of values as
single 32-bit units.  On input `[1, 2, 3, 4]` the code yields `[3, 4, 1, 2]`
(on either endianness), not the descending permutation `[4, 3, 2, 1]` the
spec and the function's own documentation require. -/
theorem claim_c7_code_bug :
    sort_numbers_array [1, 2, 3, 4] = [3, 4, 1, 2] ∧
    ¬ sortedDesc (sort_numbers_array [1, 2, 3, 4]) := by
  constructor
  · rfl
  · intro hcontra
    unfold sortedDesc at hcontra
    rw [show sort_numbers_array [1, 2, 3, 4] = [3, 4, 1, 2] from rfl] at hcontra
    simp [List.chain'_cons] at hcontra

/-- C8, code bug: the argument-count check does exit with status 1 (argc = 4,
i.e. 3 positional arguments, is rejected; argc = 5 passes), and
`create_empty_bin` exits with status 1 on allocation failure — but
`create_empty_bin_list` calls `exit(0)` on allocation failure (line 404),
reporting SUCCESS status on a failed allocation, contradicting the claim (and
`main`'s documented zero-on-success convention). -/
theorem claim_c8_code_bug :
    main_argc_exit 4 = some 1 ∧ main_argc_exit 5 = none ∧
    create_empty_bin_list_run false = Except.error 0 ∧
    create_empty_bin_run 100 false = Except.error 1 :=
  ⟨rfl, rfl, rfl, rfl⟩

/-- C9, code bug: with zero values the run does produce 0 bins, but the
reporting step is NOT guarded: `print_numbers` always computes
`total / NUMBERS_QUANTITY` (line 527), which for zero values is a division by
zero (undefined behaviour in C, modelled as `none`). -/
theorem claim_c9_code_bug :
    print_numbers_average [] = none ∧ (fill_bins 100 [] []).1 = [] :=
  ⟨rfl, rfl⟩

/-- C10: for every value `num` exceeding the capacity `BS`, offered to the loop
in any reachable state (every bin has `left ≤ BS`, the list is within the
`NUMBERS_QUANTITY` bound, an empty list only occurs with flag 1): the insertion
into the fresh bin fails the admission check (code 1), yet the brand-new EMPTY
bin (full remaining capacity, zero values) is appended, the stored values are
unchanged (`num` is stored nowhere), and the per-value failure flag is
overwritten by the successful list append, so the loop proceeds reporting
success (flag 0). -/
theorem claim_c10 (Q BS h num : Nat) (bins : List Bin) (hnum : BS < num)
    (hleft : ∀ b ∈ bins, b.left ≤ BS) (hlen : bins.length ≤ Q)
    (hne : bins = [] → h = 1) :
    (insert_number_bin (create_empty_bin BS) num).2 = 1 ∧
    fill_bins_step Q BS h bins num = (bins ++ [Bin.mk [] BS], 0) ∧
    (fill_bins_step Q BS h bins num).2 = 0 ∧
    binsValues (fill_bins_step Q BS h bins num).1 = binsValues bins := by
  have hstep := fill_bins_step_oversize Q BS h num bins hnum hleft hlen hne
  refine ⟨?_, ?_, ?_, ?_⟩
  · rw [insert_number_bin_of_nofit (create_empty_bin BS) num
      (by simp [create_empty_bin]; omega)]
  · exact hstep
  · rw [hstep]
  · rw [hstep, binsValues_append]
    simp [binsValues, create_empty_bin]

theorem claim_c10_witness :
    (insert_number_bin (create_empty_bin 10) 11).2 = 1 ∧
    fill_bins_step 1 10 1 [] 11 = ([Bin.mk [] 10], 0) ∧
    (fill_bins_step 1 10 1 [] 11).2 = 0 ∧
    binsValues (fill_bins_step 1 10 1 [] 11).1 = binsValues [] := by
  have h := claim_c10 1 10 1 11 [] (by decide)
    (fun b hb => absurd hb (List.not_mem_nil b)) (by decide) (fun _ => rfl)
  exact ⟨h.1, by simpa using h.2.1, h.2.2.1, h.2.2.2⟩

end BinPacking
